import Mathlib

/-!
# SLS protocol core: shallow embedding and verification

This file embeds the core data model and operations of the SLS bulk-transfer
protocol (files `src/chunk.rs`, `src/crypto.rs`, `src/multipath.rs`,
`src/sender.rs`) into Lean and proves the testable properties of the
specification against them.

Modelling conventions:
* Byte buffers are `List Nat`, each entry a `u8` value; machine integers are
  `Nat` with an explicit `% 2^w` at every point where the Rust code performs
  a narrowing cast (`as u16`, `as u32`, ...).
* `crc32fast::hash` is embedded as the CRC-32/ISO-HDLC algorithm that the
  crate implements (reflected polynomial `0xEDB88320`, initial value and
  final xor `0xFFFFFFFF`).
* `bincode::serialize`/`deserialize` of `ChunkHeader` are embedded as the
  fixed-width little-endian field encoding that bincode 1.x with its default
  options produces for this struct (fields in declaration order, `bool` as
  one byte that must decode from `0` or `1`, trailing bytes tolerated).
* The system clock (`timestamp_us`, `created_at`) is an input parameter of
  the embedding; no claim depends on its value.
-/

namespace SLS

/-- Little-endian byte encoding of the lowest `k` bytes of `n`
(`u16::to_le_bytes`, `u32::to_le_bytes`, ... as used by the codec). -/
def leBytes : Nat → Nat → List Nat
  | 0, _ => []
  | k + 1, n => n % 256 :: leBytes k (n / 256)

/-- Little-endian byte decoding (`u16::from_le_bytes` and the fixed-int
integer decoding of bincode). -/
def fromLe (bs : List Nat) : Nat :=
  bs.foldr (fun b acc => b % 256 + 256 * acc) 0

@[simp] theorem leBytes_length (k n : Nat) : (leBytes k n).length = k := by
  induction k generalizing n with
  | zero => rfl
  | succ k ih => simp [leBytes, ih]

theorem fromLe_leBytes (k n : Nat) : fromLe (leBytes k n) = n % 256 ^ k := by
  induction k generalizing n with
  | zero => simp [leBytes, fromLe, Nat.mod_one]
  | succ k ih =>
      simp only [leBytes, fromLe, List.foldr_cons] at *
      rw [ih, pow_succ, mul_comm (256 ^ k) 256, Nat.mod_mul,
        Nat.mod_mod_of_dvd _ dvd_rfl]

theorem leBytes_injOn {k a b : Nat} (ha : a < 256 ^ k) (hb : b < 256 ^ k)
    (h : leBytes k a = leBytes k b) : a = b := by
  have := congrArg fromLe h
  rw [fromLe_leBytes, fromLe_leBytes, Nat.mod_eq_of_lt ha, Nat.mod_eq_of_lt hb] at this
  exact this

/-- One step of the CRC-32 bit loop: process the lowest bit and shift
(reflected polynomial `0xEDB88320`). -/
def crcBit (crc : Nat) : Nat :=
  if crc % 2 = 1 then Nat.xor (crc / 2) 0xEDB88320 else crc / 2

/-- Process one byte of input into the running CRC state. -/
def crcByte (crc b : Nat) : Nat :=
  (crcBit ∘ crcBit ∘ crcBit ∘ crcBit ∘ crcBit ∘ crcBit ∘ crcBit ∘ crcBit)
    (Nat.xor crc (b % 256))

/-- `crc32fast::hash`: CRC-32/ISO-HDLC of a byte buffer. -/
def crc32 (data : List Nat) : Nat :=
  Nat.xor (data.foldl crcByte 0xFFFFFFFF) 0xFFFFFFFF

/-- Embedding of `ChunkHeader` (src/chunk.rs).  Field widths: `segment_id`
u64, `chunk_id`/`total_chunks`/`offset`/`segment_size`/`crc32` u32,
`data_len` u16, `nic_id` u8, `timestamp_us` u64. -/
structure ChunkHeader where
  segment_id : Nat
  chunk_id : Nat
  total_chunks : Nat
  offset : Nat
  data_len : Nat
  segment_size : Nat
  nic_id : Nat
  is_redundant : Bool
  crc32 : Nat
  timestamp_us : Nat
  deriving Repr, DecidableEq

/-- Embedding of `Chunk` (src/chunk.rs): header plus data bytes. -/
structure Chunk where
  header : ChunkHeader
  data : List Nat
  deriving Repr, DecidableEq

namespace Chunk

/-- `Chunk::new` (src/chunk.rs lines 61-92).  The system clock is the
parameter `ts`; the `data.len() as u16` narrowing is the `% 2 ^ 16`. -/
def new (segment_id chunk_id total_chunks offset segment_size : Nat)
    (data : List Nat) (nic_id : Nat) (is_redundant : Bool) (ts : Nat) : Chunk :=
  { header :=
      { segment_id := segment_id
        chunk_id := chunk_id
        total_chunks := total_chunks
        offset := offset
        data_len := data.length % 2 ^ 16
        segment_size := segment_size
        nic_id := nic_id
        is_redundant := is_redundant
        crc32 := crc32 data
        timestamp_us := ts }
    data := data }

/-- `Chunk::verify_crc` (src/chunk.rs lines 124-126). -/
def verify_crc (c : Chunk) : Bool :=
  crc32 c.data == c.header.crc32

end Chunk

/-- bincode 1.x fixed-int serialization of `ChunkHeader`: each field in
declaration order, little-endian, `bool` as one byte.  40 bytes total. -/
def serializeHeader (h : ChunkHeader) : List Nat :=
  leBytes 8 h.segment_id ++ leBytes 4 h.chunk_id ++ leBytes 4 h.total_chunks ++
    leBytes 4 h.offset ++ leBytes 2 h.data_len ++ leBytes 4 h.segment_size ++
    leBytes 1 h.nic_id ++ [if h.is_redundant then 1 else 0] ++
    leBytes 4 h.crc32 ++ leBytes 8 h.timestamp_us

/-- bincode 1.x deserialization of `ChunkHeader`: reads the 40-byte
fixed-width prefix, fails on truncation or on a `bool` byte other than
`0`/`1`, tolerates trailing bytes. -/
def deserializeHeader (bs : List Nat) : Option ChunkHeader :=
  if bs.length < 40 then none
  else
    let boolByte := bs.getD 27 0
    if boolByte == 0 || boolByte == 1 then
      some
        { segment_id := fromLe (bs.take 8)
          chunk_id := fromLe ((bs.drop 8).take 4)
          total_chunks := fromLe ((bs.drop 12).take 4)
          offset := fromLe ((bs.drop 16).take 4)
          data_len := fromLe ((bs.drop 20).take 2)
          segment_size := fromLe ((bs.drop 22).take 4)
          nic_id := fromLe ((bs.drop 26).take 1)
          is_redundant := boolByte == 1
          crc32 := fromLe ((bs.drop 28).take 4)
          timestamp_us := fromLe ((bs.drop 32).take 8) }
    else none

namespace Chunk

/-- `Chunk::to_bytes` (src/chunk.rs lines 95-104): 2-byte little-endian
header length, then the serialized header, then the data payload. -/
def to_bytes (c : Chunk) : List Nat :=
  let header_bytes := serializeHeader c.header
  leBytes 2 (header_bytes.length % 2 ^ 16) ++ header_bytes ++ c.data

/-- `Chunk::from_bytes` (src/chunk.rs lines 107-121). -/
def from_bytes (bytes : List Nat) : Option Chunk :=
  if bytes.length < 2 then none
  else
    let header_len := fromLe (bytes.take 2)
    if bytes.length < 2 + header_len then none
    else
      match deserializeHeader ((bytes.drop 2).take header_len) with
      | none => none
      | some h => some { header := h, data := bytes.drop (2 + header_len) }

end Chunk

/-- Embedding of `Segment` (src/chunk.rs lines 131-152).  `created_at` is
real time and is not part of the embedded state; no claim about `Segment`
depends on it. -/
structure Segment where
  id : Nat
  data : List Nat
  total_size : Nat
  received_chunks : List Bool
  total_chunks : Nat
  received_count : Nat
  deriving Repr, DecidableEq

/-- Overwrite `buf[off .. off + src.length]` with `src`
(`copy_from_slice` into a sub-slice). -/
def writeSlice (buf : List Nat) (off : Nat) (src : List Nat) : List Nat :=
  buf.take off ++ src ++ buf.drop (off + src.length)

namespace Segment

/-- `Segment::new_for_receive` (src/chunk.rs lines 156-169). -/
def new_for_receive (id total_size total_chunks : Nat) : Segment :=
  { id := id
    data := List.replicate total_size 0
    total_size := total_size
    received_chunks := List.replicate total_chunks false
    total_chunks := total_chunks
    received_count := 0 }

/-- `Segment::insert_chunk` (src/chunk.rs lines 172-195).  Returns the
updated segment together with the `bool` the Rust method returns. -/
def insert_chunk (s : Segment) (c : Chunk) : Segment × Bool :=
  let chunk_id := c.header.chunk_id
  if chunk_id ≥ s.received_chunks.length ∨ s.received_chunks.getD chunk_id false then
    (s, false)
  else if ¬ c.verify_crc then
    (s, false)
  else
    let offset := c.header.offset
    let endPos := min (offset + c.data.length) s.total_size
    let data' :=
      if offset < s.total_size then
        writeSlice s.data offset (c.data.take (endPos - offset))
      else s.data
    ({ s with
        data := data'
        received_chunks := s.received_chunks.set chunk_id true
        received_count := s.received_count + 1 }, true)

/-- `Segment::is_complete` (src/chunk.rs lines 198-200). -/
def is_complete (s : Segment) : Bool :=
  s.received_count ≥ s.total_chunks

/-- `Segment::into_data` (src/chunk.rs lines 221-223). -/
def into_data (s : Segment) : List Nat :=
  s.data

end Segment

/-- `slice::chunks`: consecutive pieces of size `cs`, last may be shorter.
Returns `[]` for `cs = 0` (where the Rust call would panic). -/
def chunksList : Nat → List Nat → List (List Nat)
  | _, [] => []
  | 0, _ :: _ => []
  | cs + 1, x :: xs =>
      (x :: xs).take (cs + 1) :: chunksList (cs + 1) ((x :: xs).drop (cs + 1))
termination_by _ l => l.length
decreasing_by
  simp only [List.length_drop, List.length_cons]
  omega

/-- `SegmentBuilder::split_into_chunks` (src/chunk.rs lines 237-262) with
`chunk_size = cs`.  The narrowing casts `idx as ChunkId`,
`total_chunks as u32`, `offset as u32`, `data.len() as u32` appear as
`% 2 ^ 32`; `ts` is the clock parameter passed to `Chunk::new`. -/
def splitIntoChunks (cs : Nat) (segment_id : Nat) (data : List Nat)
    (nic_id : Nat) (ts : Nat) : List Chunk :=
  let total_chunks := (data.length + cs - 1) / cs
  let segment_size := data.length % 2 ^ 32
  (chunksList cs data).enum.map fun p =>
    Chunk.new segment_id (p.1 % 2 ^ 32) (total_chunks % 2 ^ 32)
      (p.1 * cs % 2 ^ 32) segment_size p.2 nic_id false ts

namespace Crypto

/-- State of `SegmentCipher` (src/crypto.rs): the `u64` per-session nonce
counter.  The ChaCha20-Poly1305 key plays no role in the nonce claims. -/
structure CipherSt where
  nonce_counter : Nat
  deriving Repr, DecidableEq

/-- `SegmentCipher::generate_nonce` (src/crypto.rs lines 139-147): the
12-byte nonce is the little-endian `u64` segment id followed by the
little-endian `u32` truncation (`as u32`) of the counter; the `u64`
counter is then incremented. -/
def generateNonce (st : CipherSt) (segment_id : Nat) : List Nat × CipherSt :=
  (leBytes 8 segment_id ++ leBytes 4 (st.nonce_counter % 2 ^ 32),
    ⟨(st.nonce_counter + 1) % 2 ^ 64⟩)

/-- The nonces produced by a run of `encrypt_segment` calls whose segment
ids are listed in order (src/crypto.rs lines 159-172: each seal call draws
one nonce from `generate_nonce`). -/
def nonces (st : CipherSt) : List Nat → List (List Nat)
  | [] => []
  | sid :: rest =>
      (generateNonce st sid).1 :: nonces (generateNonce st sid).2 rest

end Crypto

namespace Multipath

/-- The fields of `NicInfo` (src/multipath.rs) that `adjust_ratios` reads
and writes.  `f64` ratios are embedded as `ℚ`. -/
structure NicR where
  ratio : ℚ
  active : Bool
  deriving Repr, DecidableEq

/-- First pass of `adjust_ratios`: for an active NIC paired with its
stats `(throughput, loss_rate)`, set
`ratio = throughput * (1 - loss_rate) / total_throughput`. -/
def applyThroughput (total : ℚ) (p : NicR × ℚ × ℚ) : NicR :=
  if p.1.active then { p.1 with ratio := p.2.1 * (1 - p.2.2) / total } else p.1

/-- Second pass: raise an active NIC's ratio to `min_ratio` if below. -/
def applyFloor (minRatio : ℚ) (nic : NicR) : NicR :=
  if nic.active ∧ nic.ratio < minRatio then { nic with ratio := minRatio }
  else nic

/-- Third pass: divide an active NIC's ratio by the active total. -/
def applyNormalize (total : ℚ) (nic : NicR) : NicR :=
  if nic.active then { nic with ratio := nic.ratio / total } else nic

/-- Number of active NICs (`nics.iter().filter(|n| n.active).count()`). -/
def activeCount (l : List NicR) : Nat :=
  (l.filter (·.active)).length

/-- Sum of the active NICs' ratios. -/
def activeRatioSum (l : List NicR) : ℚ :=
  ((l.filter (·.active)).map (·.ratio)).sum

/-- The floor loop of `adjust_ratios`: raise every active ratio below
`min_ratio = 0.1 / active_count` to `min_ratio`. -/
def floorPass (l : List NicR) : List NicR :=
  l.map (applyFloor ((1 / 10) / (activeCount l : ℚ)))

/-- The renormalization loop of `adjust_ratios`: if the active total is
positive, divide every active ratio by it. -/
def normalizePass (l : List NicR) : List NicR :=
  if 0 < activeRatioSum l then l.map (applyNormalize (activeRatioSum l))
  else l

/-- `PathManager::adjust_ratios` (src/multipath.rs lines 194-246) after
the interval gate: the statistics of NIC `i` are `stats[i] =
(throughput, loss_rate)`.  The Rust `stats[i]` indexing is embedded as a
zip; the claims assume `stats.length = nics.length` as the code does. -/
def adjustRatiosCore (nics : List NicR) (stats : List (ℚ × ℚ)) : List NicR :=
  if 0 < (stats.map Prod.fst).sum then
    normalizePass
      (floorPass ((nics.zip stats).map
        (applyThroughput ((stats.map Prod.fst).sum))))
  else nics

end Multipath

namespace Sender

/-- The per-segment sender cache entry fields that govern retention
(`SegmentState` in src/sender.rs; the cached chunk lists do not affect
eviction). -/
structure SegState where
  createdAt : Nat
  completed : Bool
  deriving Repr, DecidableEq

/-- Sender cache state: the `segments` map (as an association list keyed
by segment id) and whether `client_addr` is set. -/
structure SenderSt where
  segments : List (Nat × SegState)
  clientAddr : Bool
  deriving Repr, DecidableEq

/-- The sender steps that touch the segment cache or the client address
(src/sender.rs): `send_data` caching a fresh segment at time `now`,
`handle_control_message` on SegmentComplete and on Init/Close, and the
periodic `process_retransmits` tick at time `now`. -/
inductive Ev where
  | sendData (id now : Nat)
  | segmentComplete (id : Nat)
  | processRetransmits (now : Nat)
  | init
  | close
  deriving Repr, DecidableEq

/-- One sender step (src/sender.rs).  `send_data` inserts into the map
(line 162); SegmentComplete removes the id (line 299); Init/Close set and
clear `client_addr` (lines 274, 314); `process_retransmits` (lines
391-422) returns early without a client address, otherwise marks every
segment older than `timeout` milliseconds as completed and then retains
only the non-completed ones. -/
def step (timeout : Nat) (st : SenderSt) : Ev → SenderSt
  | .sendData id now =>
      { st with segments :=
          st.segments.filter (fun p => p.1 ≠ id) ++ [(id, ⟨now, false⟩)] }
  | .segmentComplete id =>
      { st with segments := st.segments.filter (fun p => p.1 ≠ id) }
  | .processRetransmits now =>
      if st.clientAddr then
        { st with segments :=
            ((st.segments.map fun p =>
              if timeout < now - p.2.createdAt then
                (p.1, { p.2 with completed := true })
              else p).filter
              (fun p => p.2.completed = false)) }
      else st
  | .init => { st with clientAddr := true }
  | .close => { st with clientAddr := false }

/-- Run a list of events from a state. -/
def run (timeout : Nat) (st : SenderSt) (evs : List Ev) : SenderSt :=
  evs.foldl (step timeout) st

end Sender

/-! ## Generic list helpers -/

theorem getD_set_self' {α : Type} (l : List α) {i : Nat} (h : i < l.length)
    (a d : α) : (l.set i a).getD i d = a := by
  simp [List.getD_eq_getElem?_getD, List.getElem?_set_self h]

theorem getD_set_ne' {α : Type} (l : List α) {i j : Nat} (h : i ≠ j)
    (a d : α) : (l.set i a).getD j d = l.getD j d := by
  simp [List.getD_eq_getElem?_getD, List.getElem?_set_ne h]

theorem writeSlice_length (buf src : List Nat) (off : Nat)
    (h : off + src.length ≤ buf.length) :
    (writeSlice buf off src).length = buf.length := by
  simp only [writeSlice, List.length_append, List.length_take, List.length_drop]
  omega

theorem writeSlice_getD (buf src : List Nat) (off pos : Nat)
    (h : off + src.length ≤ buf.length) (d : Nat) :
    (writeSlice buf off src).getD pos d =
      if off ≤ pos ∧ pos < off + src.length then src.getD (pos - off) d
      else buf.getD pos d := by
  have hta : (buf.take off).length = off := by
    simp only [List.length_take]
    omega
  simp only [writeSlice, List.getD_eq_getElem?_getD, List.append_assoc]
  rcases Nat.lt_or_ge pos off with h1 | h1
  · rw [List.getElem?_append_left (by rw [hta]; exact h1),
      List.getElem?_take_of_lt h1, if_neg (by omega)]
  · rw [List.getElem?_append_right (by rw [hta]; exact h1), hta]
    rcases Nat.lt_or_ge pos (off + src.length) with h2 | h2
    · rw [List.getElem?_append_left (by omega), if_pos ⟨h1, h2⟩]
    · rw [List.getElem?_append_right (by omega), if_neg (by omega),
        List.getElem?_drop]
      have harith : off + src.length + (pos - off - src.length) = pos := by
        omega
      rw [harith]

/-! ## Case lemmas for `Segment::insert_chunk` -/

theorem insert_chunk_of_guard (s : Segment) (c : Chunk)
    (hg : c.header.chunk_id ≥ s.received_chunks.length ∨
      s.received_chunks.getD c.header.chunk_id false = true) :
    s.insert_chunk c = (s, false) := by
  unfold Segment.insert_chunk
  rw [if_pos hg]

theorem insert_chunk_of_crc (s : Segment) (c : Chunk)
    (hng : ¬(c.header.chunk_id ≥ s.received_chunks.length ∨
      s.received_chunks.getD c.header.chunk_id false = true))
    (hcrc : c.verify_crc = false) :
    s.insert_chunk c = (s, false) := by
  unfold Segment.insert_chunk
  rw [if_neg hng, if_pos (by simp [hcrc])]

theorem insert_chunk_accept (s : Segment) (c : Chunk)
    (hng : ¬(c.header.chunk_id ≥ s.received_chunks.length ∨
      s.received_chunks.getD c.header.chunk_id false = true))
    (hcrc : c.verify_crc = true) :
    s.insert_chunk c =
      ({ s with
          data :=
            if c.header.offset < s.total_size then
              writeSlice s.data c.header.offset
                (c.data.take
                  (min (c.header.offset + c.data.length) s.total_size -
                    c.header.offset))
            else s.data
          received_chunks := s.received_chunks.set c.header.chunk_id true
          received_count := s.received_count + 1 }, true) := by
  unfold Segment.insert_chunk
  rw [if_neg hng, if_neg (by simp [hcrc])]

/-! ## C2: CRC and chunk-id gate of `Segment::insert_chunk` -/

/-- **C2.** A chunk whose header `crc32` differs from the CRC32 of its data,
or whose `chunk_id` is at least `total_chunks`, is rejected by
`Segment::insert_chunk`: the call returns `false` and the segment state
(data buffer, received bitmap, received count) is unchanged, so such a
chunk never contributes to completion. -/
theorem insert_chunk_gate (s : Segment) (c : Chunk)
    (hlen : s.received_chunks.length = s.total_chunks)
    (hbad : c.verify_crc = false ∨ s.total_chunks ≤ c.header.chunk_id) :
    s.insert_chunk c = (s, false) := by
  rcases hbad with hcrc | hid
  · by_cases hg : c.header.chunk_id ≥ s.received_chunks.length ∨
      s.received_chunks.getD c.header.chunk_id false = true
    · exact insert_chunk_of_guard s c hg
    · exact insert_chunk_of_crc s c hg hcrc
  · exact insert_chunk_of_guard s c (Or.inl (by omega))

/-- Witness for C2 at a concrete corrupted chunk. -/
theorem insert_chunk_gate_witness :
    (Segment.new_for_receive 1 4 2).insert_chunk
        ⟨⟨1, 0, 2, 0, 2, 4, 0, false, 0, 0⟩, [1, 2]⟩ =
      (Segment.new_for_receive 1 4 2, false) :=
  insert_chunk_gate _ _ (by decide) (Or.inl (by decide))

/-! ## C3: idempotence of `Segment::insert_chunk` -/

/-- **C3.** Re-inserting the same chunk is a no-op returning `false`: after
any first insertion (accepted or not), a second `insert_chunk` of the same
chunk returns `false` and leaves the data buffer, the received bitmap and
`received_count` exactly as after the first insertion.  In particular a
duplicate never decreases `received_count` and never changes assembled
bytes. -/
theorem insert_chunk_idempotent (s : Segment) (c : Chunk) :
    ((s.insert_chunk c).1).insert_chunk c = ((s.insert_chunk c).1, false) := by
  by_cases hg : c.header.chunk_id ≥ s.received_chunks.length ∨
      s.received_chunks.getD c.header.chunk_id false = true
  · rw [insert_chunk_of_guard s c hg]
    exact insert_chunk_of_guard s c hg
  · rcases Bool.eq_false_or_eq_true c.verify_crc with hcrc | hcrc
    · rw [insert_chunk_accept s c hg hcrc]
      have hid : c.header.chunk_id < s.received_chunks.length := by
        rcases Nat.lt_or_ge c.header.chunk_id s.received_chunks.length with h | h
        · exact h
        · exact absurd (Or.inl h) hg
      exact insert_chunk_of_guard _ _
        (Or.inr (getD_set_self' s.received_chunks hid true false))
    · rw [insert_chunk_of_crc s c hg hcrc]
      exact insert_chunk_of_crc s c hg hcrc

/-! ## C9: `Chunk::from_bytes` rejects malformed frames -/

/-- **C9.** The chunk decoder is total (the embedding is a total function)
and returns `None` on every malformed frame: an input shorter than 2
bytes, shorter than 2 plus the declared header length, or whose declared
header bytes fail to deserialize into a `ChunkHeader`. -/
theorem from_bytes_malformed (bs : List Nat)
    (h : bs.length < 2 ∨ bs.length < 2 + fromLe (bs.take 2) ∨
      deserializeHeader ((bs.drop 2).take (fromLe (bs.take 2))) = none) :
    Chunk.from_bytes bs = none := by
  unfold Chunk.from_bytes
  by_cases h1 : bs.length < 2
  · simp [h1]
  · by_cases h2 : bs.length < 2 + fromLe (bs.take 2)
    · simp [h1, h2]
    · rcases h with h | h | h
      · omega
      · omega
      · simp [h1, h2, h]

/-- Witness for C9: the empty frame is rejected. -/
theorem from_bytes_malformed_witness : Chunk.from_bytes [] = none :=
  from_bytes_malformed [] (Or.inl (by decide))

/-! ## C10: offset clamping in `Segment::insert_chunk` -/

/-- **C10.** A chunk with an in-range `chunk_id`, an unset bitmap bit and a
valid CRC is accepted even when its declared offset lies at or beyond the
segment's `total_size`, or when `offset + data.length` overruns it: the
byte copy is clamped to the buffer bounds (the buffer length never
changes, so there is no out-of-bounds write), yet the call returns `true`,
sets the bitmap bit and increments `received_count`, so the chunk counts
toward completion although its data was partially or fully discarded. -/
theorem insert_chunk_overrun (s : Segment) (c : Chunk)
    (hlen : s.data.length = s.total_size)
    (hid : c.header.chunk_id < s.received_chunks.length)
    (hbit : s.received_chunks.getD c.header.chunk_id false = false)
    (hcrc : c.verify_crc = true)
    (_hover : s.total_size ≤ c.header.offset ∨
      s.total_size < c.header.offset + c.data.length) :
    (s.insert_chunk c).2 = true ∧
      (s.insert_chunk c).1.received_count = s.received_count + 1 ∧
      (s.insert_chunk c).1.received_chunks =
        s.received_chunks.set c.header.chunk_id true ∧
      (s.insert_chunk c).1.data.length = s.data.length := by
  have hng : ¬(c.header.chunk_id ≥ s.received_chunks.length ∨
      s.received_chunks.getD c.header.chunk_id false = true) := by
    intro hor
    rcases hor with hor | hor
    · omega
    · rw [hbit] at hor
      cases hor
  rw [insert_chunk_accept s c hng hcrc]
  refine ⟨rfl, rfl, rfl, ?_⟩
  by_cases hoff : c.header.offset < s.total_size
  · simp only [if_pos hoff]
    apply writeSlice_length
    simp only [List.length_take]
    omega
  · simp only [if_neg hoff]

/-- Witness for C10: a valid chunk whose 2 data bytes begin at offset 3 of
a 4-byte segment is accepted and counted while its copy is clamped. -/
theorem insert_chunk_overrun_witness :
    (((Segment.new_for_receive 1 4 2).insert_chunk
        ⟨⟨1, 0, 2, 3, 2, 4, 0, false, crc32 [7, 8], 0⟩, [7, 8]⟩).2 = true ∧
      ((Segment.new_for_receive 1 4 2).insert_chunk
        ⟨⟨1, 0, 2, 3, 2, 4, 0, false, crc32 [7, 8], 0⟩, [7, 8]⟩).1.received_count =
        (Segment.new_for_receive 1 4 2).received_count + 1 ∧
      ((Segment.new_for_receive 1 4 2).insert_chunk
        ⟨⟨1, 0, 2, 3, 2, 4, 0, false, crc32 [7, 8], 0⟩, [7, 8]⟩).1.received_chunks =
        (Segment.new_for_receive 1 4 2).received_chunks.set 0 true ∧
      ((Segment.new_for_receive 1 4 2).insert_chunk
        ⟨⟨1, 0, 2, 3, 2, 4, 0, false, crc32 [7, 8], 0⟩, [7, 8]⟩).1.data.length =
        (Segment.new_for_receive 1 4 2).data.length) :=
  insert_chunk_overrun _ _ (by decide) (by decide) (by decide) (by decide)
    (Or.inr (by decide))

/-! ## C5: chunk wire-codec round-trip -/

/-- The field-width invariant the Rust integer types impose on a
`ChunkHeader`. -/
def ChunkHeader.wf (h : ChunkHeader) : Prop :=
  h.segment_id < 2 ^ 64 ∧ h.chunk_id < 2 ^ 32 ∧ h.total_chunks < 2 ^ 32 ∧
    h.offset < 2 ^ 32 ∧ h.data_len < 2 ^ 16 ∧ h.segment_size < 2 ^ 32 ∧
    h.nic_id < 2 ^ 8 ∧ h.crc32 < 2 ^ 32 ∧ h.timestamp_us < 2 ^ 64

instance (h : ChunkHeader) : Decidable h.wf := by
  unfold ChunkHeader.wf
  infer_instance

theorem serializeHeader_length (h : ChunkHeader) :
    (serializeHeader h).length = 40 := by
  simp only [serializeHeader, List.length_append, leBytes_length,
    List.length_cons, List.length_nil]

theorem deserializeHeader_serializeHeader (sid cid tc off dl ss nid : Nat)
    (ir : Bool) (crc ts : Nat) (h1 : sid < 2 ^ 64) (h2 : cid < 2 ^ 32)
    (h3 : tc < 2 ^ 32) (h4 : off < 2 ^ 32) (h5 : dl < 2 ^ 16)
    (h6 : ss < 2 ^ 32) (h7 : nid < 2 ^ 8) (h8 : crc < 2 ^ 32)
    (h9 : ts < 2 ^ 64) :
    deserializeHeader
        (serializeHeader ⟨sid, cid, tc, off, dl, ss, nid, ir, crc, ts⟩) =
      some ⟨sid, cid, tc, off, dl, ss, nid, ir, crc, ts⟩ := by
  set B := serializeHeader ⟨sid, cid, tc, off, dl, ss, nid, ir, crc, ts⟩
    with hBdef
  have hlen : B.length = 40 := serializeHeader_length _
  have hB : B = leBytes 8 sid ++ (leBytes 4 cid ++ (leBytes 4 tc ++
      (leBytes 4 off ++ (leBytes 2 dl ++ (leBytes 4 ss ++ (leBytes 1 nid ++
      ((if ir then 1 else 0) :: (leBytes 4 crc ++ leBytes 8 ts)))))))) := by
    rw [hBdef]
    simp only [serializeHeader, List.append_assoc, List.singleton_append,
      List.cons_append, List.nil_append]
  have d8 : B.drop 8 = leBytes 4 cid ++ (leBytes 4 tc ++ (leBytes 4 off ++
      (leBytes 2 dl ++ (leBytes 4 ss ++ (leBytes 1 nid ++
      ((if ir then 1 else 0) :: (leBytes 4 crc ++ leBytes 8 ts))))))) := by
    rw [hB]
    exact List.drop_left' (leBytes_length _ _)
  have d12 : B.drop 12 = leBytes 4 tc ++ (leBytes 4 off ++ (leBytes 2 dl ++
      (leBytes 4 ss ++ (leBytes 1 nid ++
      ((if ir then 1 else 0) :: (leBytes 4 crc ++ leBytes 8 ts)))))) := by
    rw [show (12 : Nat) = 8 + 4 from rfl, ← List.drop_drop, d8]
    exact List.drop_left' (leBytes_length _ _)
  have d16 : B.drop 16 = leBytes 4 off ++ (leBytes 2 dl ++ (leBytes 4 ss ++
      (leBytes 1 nid ++
      ((if ir then 1 else 0) :: (leBytes 4 crc ++ leBytes 8 ts))))) := by
    rw [show (16 : Nat) = 12 + 4 from rfl, ← List.drop_drop, d12]
    exact List.drop_left' (leBytes_length _ _)
  have d20 : B.drop 20 = leBytes 2 dl ++ (leBytes 4 ss ++ (leBytes 1 nid ++
      ((if ir then 1 else 0) :: (leBytes 4 crc ++ leBytes 8 ts)))) := by
    rw [show (20 : Nat) = 16 + 4 from rfl, ← List.drop_drop, d16]
    exact List.drop_left' (leBytes_length _ _)
  have d22 : B.drop 22 = leBytes 4 ss ++ (leBytes 1 nid ++
      ((if ir then 1 else 0) :: (leBytes 4 crc ++ leBytes 8 ts))) := by
    rw [show (22 : Nat) = 20 + 2 from rfl, ← List.drop_drop, d20]
    exact List.drop_left' (leBytes_length _ _)
  have d26 : B.drop 26 = leBytes 1 nid ++
      ((if ir then 1 else 0) :: (leBytes 4 crc ++ leBytes 8 ts)) := by
    rw [show (26 : Nat) = 22 + 4 from rfl, ← List.drop_drop, d22]
    exact List.drop_left' (leBytes_length _ _)
  have d27 : B.drop 27 =
      (if ir then 1 else 0) :: (leBytes 4 crc ++ leBytes 8 ts) := by
    rw [show (27 : Nat) = 26 + 1 from rfl, ← List.drop_drop, d26]
    exact List.drop_left' (leBytes_length _ _)
  have d28 : B.drop 28 = leBytes 4 crc ++ leBytes 8 ts := by
    rw [show (28 : Nat) = 27 + 1 from rfl, ← List.drop_drop, d27]
    rfl
  have d32 : B.drop 32 = leBytes 8 ts := by
    rw [show (32 : Nat) = 28 + 4 from rfl, ← List.drop_drop, d28]
    exact List.drop_left' (leBytes_length _ _)
  have f1 : fromLe (B.take 8) = sid := by
    rw [hB, List.take_left' (leBytes_length _ _), fromLe_leBytes,
      show (256 : Nat) ^ 8 = 2 ^ 64 from by norm_num, Nat.mod_eq_of_lt h1]
  have f2 : fromLe ((B.drop 8).take 4) = cid := by
    rw [d8, List.take_left' (leBytes_length _ _), fromLe_leBytes,
      show (256 : Nat) ^ 4 = 2 ^ 32 from by norm_num, Nat.mod_eq_of_lt h2]
  have f3 : fromLe ((B.drop 12).take 4) = tc := by
    rw [d12, List.take_left' (leBytes_length _ _), fromLe_leBytes,
      show (256 : Nat) ^ 4 = 2 ^ 32 from by norm_num, Nat.mod_eq_of_lt h3]
  have f4 : fromLe ((B.drop 16).take 4) = off := by
    rw [d16, List.take_left' (leBytes_length _ _), fromLe_leBytes,
      show (256 : Nat) ^ 4 = 2 ^ 32 from by norm_num, Nat.mod_eq_of_lt h4]
  have f5 : fromLe ((B.drop 20).take 2) = dl := by
    rw [d20, List.take_left' (leBytes_length _ _), fromLe_leBytes,
      show (256 : Nat) ^ 2 = 2 ^ 16 from by norm_num, Nat.mod_eq_of_lt h5]
  have f6 : fromLe ((B.drop 22).take 4) = ss := by
    rw [d22, List.take_left' (leBytes_length _ _), fromLe_leBytes,
      show (256 : Nat) ^ 4 = 2 ^ 32 from by norm_num, Nat.mod_eq_of_lt h6]
  have f7 : fromLe ((B.drop 26).take 1) = nid := by
    rw [d26, List.take_left' (leBytes_length _ _), fromLe_leBytes,
      show (256 : Nat) ^ 1 = 2 ^ 8 from by norm_num, Nat.mod_eq_of_lt h7]
  have f8 : fromLe ((B.drop 28).take 4) = crc := by
    rw [d28, List.take_left' (leBytes_length _ _), fromLe_leBytes,
      show (256 : Nat) ^ 4 = 2 ^ 32 from by norm_num, Nat.mod_eq_of_lt h8]
  have f9 : fromLe ((B.drop 32).take 8) = ts := by
    rw [d32, List.take_of_length_le (by rw [leBytes_length]), fromLe_leBytes,
      show (256 : Nat) ^ 8 = 2 ^ 64 from by norm_num, Nat.mod_eq_of_lt h9]
  have g27 : B.getD 27 0 = if ir then 1 else 0 := by
    rw [List.getD_eq_getElem?_getD,
      show (27 : Nat) = 27 + 0 from rfl, ← List.getElem?_drop, d27]
    rfl
  unfold deserializeHeader
  rw [if_neg (by omega)]
  simp only [g27, f1, f2, f3, f4, f5, f6, f7, f8, f9]
  cases ir
  · simp
  · simp

/-- **C5.** Chunk wire-codec round-trip: decoding the encoding of any
chunk whose header fields are within their Rust integer widths yields the
chunk back, header fields and data bytes intact; the encoding is the
2-byte little-endian header length `H`, then `H` bytes of serialized
header, then the data payload, and the decoder recovers `H` exactly. -/
theorem from_bytes_to_bytes (c : Chunk) (hwf : c.header.wf) :
    Chunk.from_bytes c.to_bytes = some c := by
  obtain ⟨h, data⟩ := c
  obtain ⟨h1, h2, h3, h4, h5, h6, h7, h8, h9⟩ := hwf
  obtain ⟨sid, cid, tc, off, dl, ss, nid, ir, crc, ts⟩ := h
  have hsl : (serializeHeader ⟨sid, cid, tc, off, dl, ss, nid, ir, crc, ts⟩).length
      = 40 := serializeHeader_length _
  unfold Chunk.to_bytes Chunk.from_bytes
  simp only [hsl]
  rw [show (40 : Nat) % 2 ^ 16 = 40 from rfl]
  have htake : (leBytes 2 40 ++
      (serializeHeader ⟨sid, cid, tc, off, dl, ss, nid, ir, crc, ts⟩ ++ data)).take 2 =
      leBytes 2 40 := List.take_left' (leBytes_length _ _)
  have hdrop : (leBytes 2 40 ++
      (serializeHeader ⟨sid, cid, tc, off, dl, ss, nid, ir, crc, ts⟩ ++ data)).drop 2 =
      serializeHeader ⟨sid, cid, tc, off, dl, ss, nid, ir, crc, ts⟩ ++ data :=
    List.drop_left' (leBytes_length _ _)
  simp only [List.append_assoc, htake]
  rw [show fromLe (leBytes 2 40) = 40 from by norm_num [fromLe_leBytes]]
  rw [if_neg (by
    simp only [List.length_append, hsl, leBytes_length]
    omega)]
  rw [if_neg (by
    simp only [List.length_append, hsl, leBytes_length]
    omega)]
  rw [hdrop, List.take_left' hsl]
  rw [deserializeHeader_serializeHeader sid cid tc off dl ss nid ir crc ts
    h1 h2 h3 h4 h5 h6 h7 h8 h9]
  have hdrop2 : (leBytes 2 40 ++
      (serializeHeader ⟨sid, cid, tc, off, dl, ss, nid, ir, crc, ts⟩ ++ data)).drop (2 + 40) =
      data := by
    rw [← List.drop_drop, hdrop, List.drop_left' hsl]
  rw [hdrop2]

/-- Witness for C5 at a concrete chunk. -/
theorem from_bytes_to_bytes_witness :
    Chunk.from_bytes (Chunk.to_bytes ⟨⟨5, 1, 3, 2, 2, 10, 0, true, crc32 [9, 8], 123⟩, [9, 8]⟩) =
      some ⟨⟨5, 1, 3, 2, 2, 10, 0, true, crc32 [9, 8], 123⟩, [9, 8]⟩ :=
  from_bytes_to_bytes _ (by decide)

/-! ## C4: characterization of `SegmentBuilder::split_into_chunks` -/

theorem chunksList_length (cs : Nat) (l : List Nat) :
    (chunksList cs l).length = (l.length + cs - 1) / cs := by
  induction cs, l using chunksList.induct with
  | case1 cs =>
      rcases Nat.eq_zero_or_pos cs with hcs | hcs
      · simp [chunksList, hcs]
      · rw [chunksList]
        simp only [List.length_nil]
        rw [Nat.div_eq_of_lt (by omega)]
  | case2 x xs =>
      rw [chunksList]
      simp [Nat.div_zero]
  | case3 cs x xs ih =>
      rw [chunksList]
      simp only [List.length_cons, List.length_take, List.length_drop] at *
      rw [ih]
      rcases Nat.lt_or_ge (xs.length + 1) (cs + 1) with hl | hl
      · have e1 : xs.length + 1 - (cs + 1) + (cs + 1) - 1 = cs := by omega
        have e2 : xs.length + 1 + (cs + 1) - 1 = xs.length + 1 + cs := by omega
        rw [e1, e2, Nat.div_eq_of_lt (by omega),
          Nat.div_eq_of_lt_le (k := 1) (by omega) (by omega)]
      · have e1 : xs.length + 1 - (cs + 1) + (cs + 1) - 1 = xs.length := by omega
        have e2 : xs.length + 1 + (cs + 1) - 1 = xs.length + (cs + 1) := by omega
        rw [e1, e2, Nat.add_div_right _ (Nat.succ_pos cs)]

theorem chunksList_getElem (cs : Nat) (l : List Nat) (i : Nat)
    (h : i < (chunksList cs l).length) :
    (chunksList cs l)[i] = (l.drop (i * cs)).take cs := by
  induction cs, l using chunksList.induct generalizing i with
  | case1 cs =>
      rw [chunksList] at h
      simp at h
  | case2 x xs =>
      rw [chunksList] at h
      simp at h
  | case3 cs x xs ih =>
      match i with
      | 0 => simp [chunksList]
      | j + 1 =>
          have hcons : chunksList (cs + 1) (x :: xs) =
              ((x :: xs).take (cs + 1)) ::
                chunksList (cs + 1) ((x :: xs).drop (cs + 1)) := by
            rw [chunksList]
          have h' : j < (chunksList (cs + 1) ((x :: xs).drop (cs + 1))).length := by
            rw [hcons] at h
            simpa using h
          rw [List.getElem_of_eq hcons, List.getElem_cons_succ, ih j h',
            List.drop_drop,
            show cs + 1 + j * (cs + 1) = (j + 1) * (cs + 1) from by ring]

theorem splitIntoChunks_length (cs sid nic ts : Nat) (D : List Nat) :
    (splitIntoChunks cs sid D nic ts).length = (D.length + cs - 1) / cs := by
  simp [splitIntoChunks, chunksList_length]

theorem splitIntoChunks_getElem (cs sid nic ts : Nat) (D : List Nat) (i : Nat)
    (h : i < (splitIntoChunks cs sid D nic ts).length) :
    (splitIntoChunks cs sid D nic ts)[i] =
      Chunk.new sid (i % 2 ^ 32) (((D.length + cs - 1) / cs) % 2 ^ 32)
        (i * cs % 2 ^ 32) (D.length % 2 ^ 32) ((D.drop (i * cs)).take cs)
        nic false ts := by
  have h' : i < (chunksList cs D).length := by
    rw [chunksList_length]
    rw [splitIntoChunks_length] at h
    exact h
  simp only [splitIntoChunks, List.getElem_map, List.getElem_enum]
  rw [chunksList_getElem _ _ _ h']

/-- **C4 (amended).** For every segment id, nonempty buffer `D` of length
`L`, and `chunk_size c > 0`, `split_into_chunks` produces exactly
`ceil(L/c)` chunks whose data slices are the consecutive `c`-sized pieces
of `D`; chunk `i` carries (after the `u32`/`u16` narrowing the Rust header
types impose) `chunk_id = i mod 2^32`, `offset = i*c mod 2^32`,
`data_len = min(c, L - i*c) mod 2^16`, `total_chunks = ceil(L/c) mod 2^32`,
`segment_size = L mod 2^32`, `is_redundant = false`, and a CRC32 freshly
computed over its own data slice. -/
theorem split_into_chunks_spec (cs sid nic ts : Nat) (D : List Nat)
    (_hcs : 0 < cs) (_hD : 0 < D.length) :
    (splitIntoChunks cs sid D nic ts).length = (D.length + cs - 1) / cs ∧
      ∀ i (h : i < (splitIntoChunks cs sid D nic ts).length),
        ((splitIntoChunks cs sid D nic ts).get ⟨i, h⟩).header.segment_id = sid ∧
        ((splitIntoChunks cs sid D nic ts).get ⟨i, h⟩).header.chunk_id = i % 2 ^ 32 ∧
        ((splitIntoChunks cs sid D nic ts).get ⟨i, h⟩).header.total_chunks =
          ((D.length + cs - 1) / cs) % 2 ^ 32 ∧
        ((splitIntoChunks cs sid D nic ts).get ⟨i, h⟩).header.offset = i * cs % 2 ^ 32 ∧
        ((splitIntoChunks cs sid D nic ts).get ⟨i, h⟩).data = (D.drop (i * cs)).take cs ∧
        ((splitIntoChunks cs sid D nic ts).get ⟨i, h⟩).header.data_len =
          min cs (D.length - i * cs) % 2 ^ 16 ∧
        ((splitIntoChunks cs sid D nic ts).get ⟨i, h⟩).header.segment_size =
          D.length % 2 ^ 32 ∧
        ((splitIntoChunks cs sid D nic ts).get ⟨i, h⟩).header.is_redundant = false ∧
        ((splitIntoChunks cs sid D nic ts).get ⟨i, h⟩).header.crc32 =
          crc32 ((D.drop (i * cs)).take cs) := by
  refine ⟨splitIntoChunks_length cs sid nic ts D, ?_⟩
  intro i h
  rw [List.get_eq_getElem, splitIntoChunks_getElem cs sid nic ts D i h]
  refine ⟨rfl, rfl, rfl, rfl, rfl, ?_, rfl, rfl, rfl⟩
  show ((D.drop (i * cs)).take cs).length % 2 ^ 16 = min cs (D.length - i * cs) % 2 ^ 16
  rw [List.length_take, List.length_drop]

/-- Witness for the amended C4 at `c = 2`, `D = [1,2,3]`. -/
theorem split_into_chunks_spec_witness :
    (splitIntoChunks 2 9 [1, 2, 3] 0 0).length = (3 + 2 - 1) / 2 ∧
      ∀ i (h : i < (splitIntoChunks 2 9 [1, 2, 3] 0 0).length),
        ((splitIntoChunks 2 9 [1, 2, 3] 0 0).get ⟨i, h⟩).header.segment_id = 9 ∧
        ((splitIntoChunks 2 9 [1, 2, 3] 0 0).get ⟨i, h⟩).header.chunk_id = i % 2 ^ 32 ∧
        ((splitIntoChunks 2 9 [1, 2, 3] 0 0).get ⟨i, h⟩).header.total_chunks =
          ((3 + 2 - 1) / 2) % 2 ^ 32 ∧
        ((splitIntoChunks 2 9 [1, 2, 3] 0 0).get ⟨i, h⟩).header.offset = i * 2 % 2 ^ 32 ∧
        ((splitIntoChunks 2 9 [1, 2, 3] 0 0).get ⟨i, h⟩).data =
          (([1, 2, 3] : List Nat).drop (i * 2)).take 2 ∧
        ((splitIntoChunks 2 9 [1, 2, 3] 0 0).get ⟨i, h⟩).header.data_len =
          min 2 (3 - i * 2) % 2 ^ 16 ∧
        ((splitIntoChunks 2 9 [1, 2, 3] 0 0).get ⟨i, h⟩).header.segment_size =
          3 % 2 ^ 32 ∧
        ((splitIntoChunks 2 9 [1, 2, 3] 0 0).get ⟨i, h⟩).header.is_redundant = false ∧
        ((splitIntoChunks 2 9 [1, 2, 3] 0 0).get ⟨i, h⟩).header.crc32 =
          crc32 ((([1, 2, 3] : List Nat).drop (i * 2)).take 2) := by
  have := split_into_chunks_spec 2 9 0 0 [1, 2, 3] (by decide) (by decide)
  simpa using this

/-- **C4 counterexample.** The claim as stated (`data_len = min(c, L - i*c)`
with no truncation) fails at `c = L = 65536`: the single produced chunk
carries `data_len = 0` because `Chunk::new` narrows the length with
`as u16`. -/
theorem split_data_len_counterexample :
    ¬ ∀ i (h : i < (splitIntoChunks 65536 7 (List.replicate 65536 0) 0 0).length),
        ((splitIntoChunks 65536 7 (List.replicate 65536 0) 0 0).get ⟨i, h⟩).header.data_len =
          min 65536 ((List.replicate 65536 (0 : Nat)).length - i * 65536) := by
  intro hall
  have hlen : (splitIntoChunks 65536 7 (List.replicate 65536 0) 0 0).length = 1 := by
    rw [splitIntoChunks_length, List.length_replicate]
  have h0 : (0 : Nat) < (splitIntoChunks 65536 7 (List.replicate 65536 0) 0 0).length := by
    omega
  have := hall 0 h0
  rw [List.get_eq_getElem, splitIntoChunks_getElem _ _ _ _ _ _ h0] at this
  simp only [Chunk.new, List.length_replicate, List.length_take,
    List.length_drop] at this
  omega

/-! ## C1: segment-level round trip -/

theorem lt_ceil_mul {c L i : Nat} (hc : 0 < c) (hi : i < (L + c - 1) / c) :
    i * c < L := by
  by_contra hcon
  push_neg at hcon
  have h1 : (L + c - 1) / c ≤ (c - 1 + i * c) / c :=
    Nat.div_le_div_right (by omega)
  rw [Nat.add_mul_div_right _ _ hc] at h1
  have h2 : (c - 1) / c = 0 := Nat.div_eq_of_lt (by omega)
  omega

theorem ceil_mul_ge (c L : Nat) (hc : 0 < c) : L ≤ ((L + c - 1) / c) * c := by
  have h3 := Nat.div_add_mod (L + c - 1) c
  have h1 : (L + c - 1) % c < c := Nat.mod_lt _ (by omega)
  rw [mul_comm]
  omega

/-- Invariant tying a receiving segment to the source buffer `D` and chunk
size `c`: sizes agree, the received count mirrors the bitmap, and every
byte of the buffer holds the source byte exactly when the bit of its
covering chunk is set. -/
def segInv (c : Nat) (D : List Nat) (seg : Segment) : Prop :=
  seg.received_chunks.length = (D.length + c - 1) / c ∧
    seg.data.length = D.length ∧
    seg.total_size = D.length ∧
    seg.total_chunks = (D.length + c - 1) / c ∧
    seg.received_count = seg.received_chunks.count true ∧
    ∀ pos, pos < D.length →
      seg.data.getD pos 0 =
        if seg.received_chunks.getD (pos / c) false then D.getD pos 0 else 0

theorem insert_step (c : Nat) (hc : 0 < c) (D : List Nat) (seg : Segment)
    (ch : Chunk) (hI : segInv c D seg) (i : Nat)
    (hi : i < (D.length + c - 1) / c)
    (hcid : ch.header.chunk_id = i) (hoff : ch.header.offset = i * c)
    (hdata : ch.data = (D.drop (i * c)).take c)
    (hcrc : ch.header.crc32 = crc32 ch.data) :
    segInv c D (seg.insert_chunk ch).1 ∧
      ∀ j, (seg.insert_chunk ch).1.received_chunks.getD j false =
        (seg.received_chunks.getD j false || (ch.header.chunk_id == j)) := by
  obtain ⟨hlen, hdlen, hts, htc, hcount, hdinv⟩ := hI
  have hicl : i * c < D.length := lt_ceil_mul hc hi
  have hdl : ch.data.length = min c (D.length - i * c) := by
    rw [hdata, List.length_take, List.length_drop]
  have hdl1 : ch.data.length ≤ c := by
    rw [hdl]
    exact min_le_left _ _
  have hdl2 : ch.data.length ≤ D.length - i * c := by
    rw [hdl]
    exact min_le_right _ _
  have hdl3 : ch.data.length = c ∨ ch.data.length = D.length - i * c := by
    rw [hdl]
    exact min_choice _ _
  have hIdx : i < seg.received_chunks.length := by
    rw [hlen]
    exact hi
  have hvcrc : ch.verify_crc = true := by
    simp [Chunk.verify_crc, hcrc]
  by_cases hbit : seg.received_chunks.getD i false = true
  · have heq : seg.insert_chunk ch = (seg, false) :=
      insert_chunk_of_guard _ _ (Or.inr (by rw [hcid]; exact hbit))
    rw [heq]
    refine ⟨⟨hlen, hdlen, hts, htc, hcount, hdinv⟩, ?_⟩
    intro j
    rw [hcid]
    by_cases hji : i = j
    · subst hji
      rw [hbit, beq_self_eq_true, Bool.true_or]
    · have hb : (i == j) = false := by
        simp [hji]
      rw [hb, Bool.or_false]
  · have hbitf : seg.received_chunks.getD i false = false := by
      simpa using hbit
    have hng : ¬(ch.header.chunk_id ≥ seg.received_chunks.length ∨
        seg.received_chunks.getD ch.header.chunk_id false = true) := by
      rw [hcid]
      rintro (h | h)
      · omega
      · rw [hbitf] at h
        cases h
    rw [insert_chunk_accept seg ch hng hvcrc]
    have hend : min (ch.header.offset + ch.data.length) seg.total_size =
        ch.header.offset + ch.data.length := by
      rw [min_eq_left]
      rw [hoff, hts]
      omega
    have hsrc : ch.data.take
        (min (ch.header.offset + ch.data.length) seg.total_size -
          ch.header.offset) = ch.data := by
      rw [hend, show ch.header.offset + ch.data.length - ch.header.offset =
        ch.data.length from by omega, List.take_length]
    have hofflt : ch.header.offset < seg.total_size := by
      rw [hoff, hts]
      exact hicl
    rw [if_pos hofflt, hsrc]
    have hgelem : seg.received_chunks[i] = false := by
      rw [List.getD_eq_getElem?_getD, List.getElem?_eq_getElem hIdx] at hbitf
      simpa using hbitf
    have hle : ch.header.offset + ch.data.length ≤ seg.data.length := by
      rw [hoff, hdlen]
      omega
    refine ⟨⟨?_, ?_, ?_, ?_, ?_, ?_⟩, ?_⟩
    · dsimp only
      rw [List.length_set, hlen]
    · dsimp only
      rw [writeSlice_length _ _ _ hle, hdlen]
    · exact hts
    · exact htc
    · dsimp only
      rw [hcid, List.count_set true true _ i (by omega), hgelem]
      rw [if_neg (by decide), if_pos (by decide), hcount]
      omega
    · intro pos hpos
      dsimp only
      rw [hcid, writeSlice_getD _ _ _ _ hle 0, hoff]
      by_cases hin : i * c ≤ pos ∧ pos < i * c + ch.data.length
      · obtain ⟨hin1, hin2⟩ := hin
        rw [if_pos ⟨hin1, hin2⟩]
        have hdivi : pos / c = i :=
          Nat.div_eq_of_lt_le (by omega)
            (by rw [show (i + 1) * c = i * c + c from by ring]; omega)
        rw [hdivi, getD_set_self' _ hIdx, if_pos rfl]
        rw [hdata, List.getD_eq_getElem?_getD,
          List.getElem?_take_of_lt (by omega : pos - i * c < c),
          List.getElem?_drop,
          show i * c + (pos - i * c) = pos from by omega,
          ← List.getD_eq_getElem?_getD]
      · rw [if_neg hin]
        have hne : i ≠ pos / c := by
          intro heq
          have h1 : i * c ≤ pos := by
            rw [heq]
            exact Nat.div_mul_le_self pos c
          have h2 : pos < i * c + c := by
            have h3 := (Nat.div_lt_iff_lt_mul hc).mp
              (Nat.lt_succ_self (pos / c))
            rw [show (pos / c + 1) * c = pos / c * c + c from by ring] at h3
            rw [heq]
            omega
          exact hin ⟨h1, by omega⟩
        rw [getD_set_ne' _ hne]
        exact hdinv pos hpos
    · intro j
      dsimp only
      rw [hcid]
      by_cases hji : i = j
      · subst hji
        rw [getD_set_self' _ hIdx, beq_self_eq_true, Bool.or_true]
      · rw [getD_set_ne' _ hji]
        have hb : (i == j) = false := by
          simp [hji]
        rw [hb, Bool.or_false]

/-- Insert a list of chunks in order into a segment
(the receive loop delivering chunks in arbitrary arrival order). -/
def insertAll (seg : Segment) (order : List Chunk) : Segment :=
  order.foldl (fun st ch => (st.insert_chunk ch).1) seg

theorem insertAll_inv (c : Nat) (hc : 0 < c) (D : List Nat)
    (order : List Chunk) (seg : Segment) (hI : segInv c D seg)
    (hmem : ∀ ch ∈ order, ∃ i, i < (D.length + c - 1) / c ∧
      ch.header.chunk_id = i ∧ ch.header.offset = i * c ∧
      ch.data = (D.drop (i * c)).take c ∧
      ch.header.crc32 = crc32 ch.data) :
    segInv c D (insertAll seg order) ∧
      ∀ j, (insertAll seg order).received_chunks.getD j false =
        (seg.received_chunks.getD j false ||
          order.any (fun ch => ch.header.chunk_id == j)) := by
  revert hmem
  induction order generalizing seg with
  | nil =>
      intro hmem
      exact ⟨hI, fun j => by simp [insertAll]⟩
  | cons ch rest ih =>
      intro hmem
      obtain ⟨i, hi, hcid, hoff, hdata, hcrc⟩ :=
        hmem ch (List.mem_cons_self _ _)
      obtain ⟨hI1, hbm1⟩ := insert_step c hc D seg ch hI i hi hcid hoff hdata hcrc
      obtain ⟨hI2, hbm2⟩ := ih (seg.insert_chunk ch).1 hI1
        (fun x hx => hmem x (List.mem_cons_of_mem _ hx))
      have hfold : insertAll seg (ch :: rest) =
          insertAll (seg.insert_chunk ch).1 rest := rfl
      refine ⟨by rw [hfold]; exact hI2, ?_⟩
      intro j
      rw [hfold, hbm2 j, hbm1 j, List.any_cons, Bool.or_assoc]

theorem segInv_init (c sid : Nat) (D : List Nat) :
    segInv c D
      (Segment.new_for_receive sid D.length ((D.length + c - 1) / c)) := by
  refine ⟨by simp [Segment.new_for_receive], by simp [Segment.new_for_receive],
    rfl, rfl, by simp [Segment.new_for_receive, List.count_replicate], ?_⟩
  intro pos hpos
  have h1 : (List.replicate D.length (0 : Nat)).getD pos 0 = 0 := by
    rcases Nat.lt_or_ge pos D.length with h | h
    · simp [List.getD_eq_getElem?_getD, List.getElem?_replicate, h]
    · simp [List.getD_eq_getElem?_getD, List.getElem?_replicate,
        Nat.not_lt.mpr h]
  have h2 : (List.replicate ((D.length + c - 1) / c) false).getD (pos / c)
      false = false := by
    rcases Nat.lt_or_ge (pos / c) ((D.length + c - 1) / c) with h | h
    · simp [List.getD_eq_getElem?_getD, List.getElem?_replicate, h]
    · simp [List.getD_eq_getElem?_getD, List.getElem?_replicate,
        Nat.not_lt.mpr h]
  show (List.replicate D.length (0 : Nat)).getD pos 0 = _
  rw [h1]
  show (0 : Nat) = if (List.replicate ((D.length + c - 1) / c) false).getD
      (pos / c) false then D.getD pos 0 else 0
  rw [h2, if_neg (by simp)]

/-- **C1.** Segment-level round trip: for every byte buffer `D` with
`|D| ≤ 10 MiB` and every `chunk_size c > 0`, inserting the chunks produced
by `SegmentBuilder::split_into_chunks` in any order into a segment created
by `Segment::new_for_receive(sid, |D|, ceil(|D|/c))` makes `is_complete`
return `true` and `into_data` return exactly `D`. -/
theorem segment_round_trip (c sid nic ts : Nat) (D : List Nat)
    (hc : 0 < c) (hL : D.length ≤ 10 * 1024 * 1024)
    (order : List Chunk)
    (hperm : order.Perm (splitIntoChunks c sid D nic ts)) :
    (insertAll
        (Segment.new_for_receive sid D.length ((D.length + c - 1) / c))
        order).is_complete = true ∧
      (insertAll
        (Segment.new_for_receive sid D.length ((D.length + c - 1) / c))
        order).into_data = D := by
  set n := (D.length + c - 1) / c with hn
  have hnle : n ≤ D.length := by
    have h1 : (D.length + c - 1) / c < D.length + 1 :=
      (Nat.div_lt_iff_lt_mul hc).2 (by
        rw [show (D.length + 1) * c = D.length * c + c from by ring]
        have := Nat.le_mul_of_pos_right D.length hc
        omega)
    omega
  have hL32 : D.length < 2 ^ 32 := by omega
  have hmem : ∀ ch ∈ order, ∃ i, i < n ∧ ch.header.chunk_id = i ∧
      ch.header.offset = i * c ∧ ch.data = (D.drop (i * c)).take c ∧
      ch.header.crc32 = crc32 ch.data := by
    intro ch hch
    have hch2 : ch ∈ splitIntoChunks c sid D nic ts := hperm.subset hch
    obtain ⟨i, hilt, hgi⟩ := List.getElem_of_mem hch2
    have hilt' : i < n := by
      rw [splitIntoChunks_length] at hilt
      exact hilt
    have hicl : i * c < D.length := lt_ceil_mul hc hilt'
    refine ⟨i, hilt', ?_, ?_, ?_, ?_⟩ <;>
      rw [← hgi, splitIntoChunks_getElem c sid nic ts D i hilt]
    · show i % 2 ^ 32 = i
      exact Nat.mod_eq_of_lt (by omega)
    · show i * c % 2 ^ 32 = i * c
      exact Nat.mod_eq_of_lt (by omega)
    · rfl
    · rfl
  obtain ⟨hIf, hbmf⟩ := insertAll_inv c hc D order
    (Segment.new_for_receive sid D.length n) (segInv_init c sid D) hmem
  obtain ⟨hlen, hdlen, hts, htc, hcount, hdinv⟩ := hIf
  have hbits : ∀ j, j < n →
      (insertAll (Segment.new_for_receive sid D.length n)
        order).received_chunks.getD j false = true := by
    intro j hj
    rw [hbmf j]
    have hinit : (Segment.new_for_receive sid D.length n).received_chunks.getD
        j false = false := by
      simp [Segment.new_for_receive, List.getD_eq_getElem?_getD,
        List.getElem?_replicate, hj]
    rw [hinit, Bool.false_or]
    have hjlt : j < (splitIntoChunks c sid D nic ts).length := by
      rw [splitIntoChunks_length]
      exact hj
    rw [List.any_eq_true]
    refine ⟨(splitIntoChunks c sid D nic ts).get ⟨j, hjlt⟩, ?_, ?_⟩
    · exact hperm.mem_iff.mpr (by
        rw [List.get_eq_getElem]
        exact List.getElem_mem hjlt)
    · rw [List.get_eq_getElem, splitIntoChunks_getElem c sid nic ts D j hjlt]
      show ((j % 2 ^ 32 : Nat) == j) = true
      rw [Nat.mod_eq_of_lt (by omega), beq_self_eq_true]
  have hall : ∀ b ∈ (insertAll (Segment.new_for_receive sid D.length n)
      order).received_chunks, true = b := by
    intro b hb
    obtain ⟨k, hk, hkb⟩ := List.getElem_of_mem hb
    have hkd : (insertAll (Segment.new_for_receive sid D.length n)
        order).received_chunks.getD k false = b := by
      rw [List.getD_eq_getElem?_getD, List.getElem?_eq_getElem hk, hkb]
      rfl
    have hkn : k < n := by
      rw [hlen] at hk
      exact hk
    rw [← hkd, hbits k hkn]
  have hcnt : (insertAll (Segment.new_for_receive sid D.length n)
      order).received_chunks.count true = n := by
    rw [List.count_eq_length.mpr hall, hlen]
  constructor
  · simp [Segment.is_complete, hcount, hcnt, htc]
  · show (insertAll (Segment.new_for_receive sid D.length n) order).data = D
    apply List.ext_getElem (by rw [hdlen])
    intro k h1 h2
    have hkL : k < D.length := h2
    have hgetD := hdinv k hkL
    have hdivn : k / c < n := by
      have hcm := ceil_mul_ge c D.length hc
      rw [← hn] at hcm
      exact (Nat.div_lt_iff_lt_mul hc).2 (by omega)
    rw [hbits (k / c) hdivn, if_pos rfl] at hgetD
    rw [List.getD_eq_getElem?_getD, List.getElem?_eq_getElem h1,
      List.getD_eq_getElem?_getD, List.getElem?_eq_getElem h2] at hgetD
    simpa using hgetD

/-- Witness for C1: the three chunks of `[10, 20, 30]` with `c = 2`,
inserted in reversed order, reassemble the buffer. -/
theorem segment_round_trip_witness :
    (insertAll
        (Segment.new_for_receive 1 ([10, 20, 30] : List Nat).length
          ((([10, 20, 30] : List Nat).length + 2 - 1) / 2))
        ((splitIntoChunks 2 1 [10, 20, 30] 0 0).reverse)).is_complete = true ∧
      (insertAll
        (Segment.new_for_receive 1 ([10, 20, 30] : List Nat).length
          ((([10, 20, 30] : List Nat).length + 2 - 1) / 2))
        ((splitIntoChunks 2 1 [10, 20, 30] 0 0).reverse)).into_data =
        [10, 20, 30] :=
  segment_round_trip 2 1 0 0 [10, 20, 30] (by decide) (by decide)
    ((splitIntoChunks 2 1 [10, 20, 30] 0 0).reverse)
    (List.reverse_perm _)

/-! ## C6: nonce uniqueness of `SegmentCipher` -/

theorem nonces_getD (st : Crypto.CipherSt) (hst : st.nonce_counter < 2 ^ 64)
    (ids : List Nat) (i : Nat) (h : i < ids.length) :
    (Crypto.nonces st ids).getD i [] =
      leBytes 8 (ids.getD i 0) ++
        leBytes 4 ((st.nonce_counter + i) % 2 ^ 32) := by
  induction ids generalizing st i with
  | nil => simp at h
  | cons sid rest ih =>
      match i with
      | 0 =>
          show leBytes 8 sid ++ leBytes 4 (st.nonce_counter % 2 ^ 32) = _
          rw [List.getD_cons_zero, Nat.add_zero]
      | k + 1 =>
          have hrest : k < rest.length := by simpa using h
          show (Crypto.nonces ⟨(st.nonce_counter + 1) % 2 ^ 64⟩ rest).getD k []
            = _
          rw [ih ⟨(st.nonce_counter + 1) % 2 ^ 64⟩
            (Nat.mod_lt _ (by norm_num)) k hrest, List.getD_cons_succ]
          have harith : ((st.nonce_counter + 1) % 2 ^ 64 + k) % 2 ^ 32 =
              (st.nonce_counter + (k + 1)) % 2 ^ 32 := by omega
          rw [harith]

/-- **C6 (amended).** Within any window of fewer than `2^32` seal calls of
one `SegmentCipher` session, two distinct `encrypt_segment` calls produce
distinct 12-byte nonces (little-endian 64-bit segment id followed by the
`u32` truncation of the per-session counter).  The truncation `as u32` of
the `u64` counter makes nonces repeat once two calls with the same segment
id are exactly `2^32` seal calls apart, so the claim's unrestricted form
fails. -/
theorem nonce_uniqueness (st : Crypto.CipherSt)
    (hst : st.nonce_counter < 2 ^ 64) (ids : List Nat) (i j : Nat)
    (hij : i < j) (hj : j < ids.length) (hwin : j - i < 2 ^ 32) :
    (Crypto.nonces st ids).getD i [] ≠ (Crypto.nonces st ids).getD j [] := by
  rw [nonces_getD st hst ids i (by omega), nonces_getD st hst ids j hj]
  intro heq
  have htail := List.append_inj_right heq
    (by rw [leBytes_length, leBytes_length])
  have hcnt := leBytes_injOn (k := 4)
    (by rw [show (256 : Nat) ^ 4 = 2 ^ 32 from by norm_num]
        exact Nat.mod_lt _ (by norm_num))
    (by rw [show (256 : Nat) ^ 4 = 2 ^ 32 from by norm_num]
        exact Nat.mod_lt _ (by norm_num))
    htail
  omega

/-- Witness for the amended C6: the first two seal calls of a fresh session
(segment id 5 both times) produce distinct nonces. -/
theorem nonce_uniqueness_witness :
    (Crypto.nonces ⟨0⟩ [5, 5]).getD 0 [] ≠
      (Crypto.nonces ⟨0⟩ [5, 5]).getD 1 [] :=
  nonce_uniqueness ⟨0⟩ (by norm_num) [5, 5] 0 1 (by norm_num)
    (by norm_num) (by norm_num)

/-- **C6 counterexample.** In a session whose first `2^32 + 1` seal calls
all carry segment id 0, the nonce of call `0` equals the nonce of call
`2^32`: the claim that any two distinct seal calls yield distinct nonces is
false on the code. -/
theorem nonce_collision_counterexample :
    (Crypto.nonces ⟨0⟩ (List.replicate (2 ^ 32 + 1) 0)).getD 0 [] =
        (Crypto.nonces ⟨0⟩ (List.replicate (2 ^ 32 + 1) 0)).getD (2 ^ 32) [] ∧
      (0 : Nat) ≠ 2 ^ 32 := by
  constructor
  · rw [nonces_getD ⟨0⟩ (by norm_num) _ 0
      (by rw [List.length_replicate]; norm_num),
      nonces_getD ⟨0⟩ (by norm_num) _ (2 ^ 32)
      (by rw [List.length_replicate]; norm_num)]
    have g1 : (List.replicate (2 ^ 32 + 1) (0 : Nat)).getD 0 0 = 0 := by
      rw [List.getD_eq_getElem?_getD, List.getElem?_replicate, if_pos (by norm_num)]
      rfl
    have g2 : (List.replicate (2 ^ 32 + 1) (0 : Nat)).getD (2 ^ 32) 0 = 0 := by
      rw [List.getD_eq_getElem?_getD, List.getElem?_replicate, if_pos (by norm_num)]
      rfl
    rw [g1, g2]
    norm_num
  · norm_num

/-! ## C8: sender segment-cache retention -/

/-- **C8 (amended).** A cached, not-yet-completed segment can disappear
from the sender's `segments` map only through the SegmentComplete handler
for its id, or through the periodic `process_retransmits` tick after more
than `segment_timeout_ms` milliseconds have elapsed since the segment was
cached (and only while a client address is set); no other sender step
evicts it.  The per-segment timeout eviction happens even while the
session is live, so the claim's "never before SegmentComplete or session
end" form fails. -/
theorem sender_cache_retention (timeout : Nat) (st : Sender.SenderSt)
    (id : Nat) (ss : Sender.SegState) (hmem : (id, ss) ∈ st.segments)
    (hnc : ss.completed = false) (e : Sender.Ev)
    (hgone : ∀ ss', (id, ss') ∉ (Sender.step timeout st e).segments) :
    e = Sender.Ev.segmentComplete id ∨
      ∃ now, e = Sender.Ev.processRetransmits now ∧ st.clientAddr = true ∧
        timeout < now - ss.createdAt := by
  cases e with
  | sendData id2 now =>
      exfalso
      by_cases hid : id = id2
      · subst hid
        exact hgone ⟨now, false⟩ (by simp [Sender.step])
      · exact hgone ss (by simp [Sender.step, List.mem_filter, hmem, hid])
  | segmentComplete id2 =>
      by_cases hid : id2 = id
      · left
        rw [hid]
      · exfalso
        exact hgone ss
          (by simp [Sender.step, List.mem_filter, hmem, Ne.symm hid])
  | processRetransmits now =>
      by_cases hca : st.clientAddr
      · by_cases hT : timeout < now - ss.createdAt
        · right
          exact ⟨now, rfl, hca, hT⟩
        · exfalso
          apply hgone ss
          simp only [Sender.step, if_pos hca]
          rw [List.mem_filter]
          refine ⟨List.mem_map.mpr ⟨(id, ss), hmem, by simp [hT]⟩, by simp [hnc]⟩
      · exfalso
        exact hgone ss (by simp [Sender.step, hca, hmem])
  | init => exact absurd (hgone ss (by simp [Sender.step, hmem])) (by simp)
  | close => exact absurd (hgone ss (by simp [Sender.step, hmem])) (by simp)

/-- Witness for the amended C8: with the default 5000 ms timeout, a
segment cached at time 0 and evicted at time 5001 satisfies the eviction
disjunction. -/
theorem sender_cache_retention_witness :
    Sender.Ev.processRetransmits 5001 = Sender.Ev.segmentComplete 1 ∨
      ∃ now, Sender.Ev.processRetransmits 5001 =
          Sender.Ev.processRetransmits now ∧
        (Sender.SenderSt.mk [(1, ⟨0, false⟩)] true).clientAddr = true ∧
        5000 < now - (Sender.SegState.mk 0 false).createdAt :=
  sender_cache_retention 5000 ⟨[(1, ⟨0, false⟩)], true⟩ 1 ⟨0, false⟩
    (by simp) (by rfl) (Sender.Ev.processRetransmits 5001)
    (by intro ss'; simp [Sender.step])

/-- **C8 counterexample.** Under the default `segment_timeout_ms = 5000`,
a sender that connects, caches segment 1 at time 0, and runs the periodic
tick at time 5001 has evicted the still-unconfirmed segment although no
SegmentComplete arrived and the session is still live. -/
theorem sender_cache_eviction_counterexample :
    (Sender.run 5000 ⟨[], false⟩
        [Sender.Ev.init, Sender.Ev.sendData 1 0]).segments =
        [(1, ⟨0, false⟩)] ∧
      (Sender.run 5000 ⟨[], false⟩
        [Sender.Ev.init, Sender.Ev.sendData 1 0]).clientAddr = true ∧
      (Sender.run 5000 ⟨[], false⟩
        [Sender.Ev.init, Sender.Ev.sendData 1 0,
          Sender.Ev.processRetransmits 5001]).segments = [] ∧
      (Sender.run 5000 ⟨[], false⟩
        [Sender.Ev.init, Sender.Ev.sendData 1 0,
          Sender.Ev.processRetransmits 5001]).clientAddr = true := by
  refine ⟨?_, ?_, ?_, ?_⟩ <;> rfl

/-! ## C7: path-weight normalization -/

namespace Multipath

theorem activeRatioSum_cons (x : NicR) (l : List NicR) :
    activeRatioSum (x :: l) =
      (if x.active then x.ratio else 0) + activeRatioSum l := by
  by_cases h : x.active <;> simp [activeRatioSum, List.filter_cons, h]

theorem activeCount_cons (x : NicR) (l : List NicR) :
    activeCount (x :: l) = (if x.active then 1 else 0) + activeCount l := by
  by_cases h : x.active
  · simp [activeCount, List.filter_cons, h]
    omega
  · simp [activeCount, List.filter_cons, h]

theorem applyThroughput_active (T : ℚ) (p : NicR × ℚ × ℚ) :
    (applyThroughput T p).active = p.1.active := by
  by_cases h : p.1.active <;> simp [applyThroughput, h]

theorem applyFloor_active (m : ℚ) (nic : NicR) :
    (applyFloor m nic).active = nic.active := by
  by_cases h : nic.active ∧ nic.ratio < m <;> simp [applyFloor, h]

theorem applyNormalize_active (t : ℚ) (nic : NicR) :
    (applyNormalize t nic).active = nic.active := by
  by_cases h : nic.active <;> simp [applyNormalize, h]

theorem activeCount_map_of_active_eq (f : NicR → NicR)
    (hf : ∀ x, (f x).active = x.active) (l : List NicR) :
    activeCount (l.map f) = activeCount l := by
  induction l with
  | nil => rfl
  | cons x l ih =>
      rw [List.map_cons, activeCount_cons, activeCount_cons, hf, ih]

theorem activeCount_zip_map (T : ℚ) (nics : List NicR)
    (stats : List (ℚ × ℚ)) (hlen : stats.length = nics.length) :
    activeCount ((nics.zip stats).map (applyThroughput T)) =
      activeCount nics := by
  induction nics generalizing stats with
  | nil => simp [activeCount]
  | cons n ns ih =>
      cases stats with
      | nil => simp at hlen
      | cons s ss =>
          rw [List.zip_cons_cons, List.map_cons, activeCount_cons,
            activeCount_cons, applyThroughput_active,
            ih ss (by simpa using hlen)]

theorem pass1_nonneg (T : ℚ) (hT : 0 < T) (nics : List NicR)
    (stats : List (ℚ × ℚ))
    (hs : ∀ p ∈ stats, 0 ≤ p.1 ∧ 0 ≤ p.2 ∧ p.2 ≤ 1) :
    ∀ nic ∈ (nics.zip stats).map (applyThroughput T), nic.active = true →
      0 ≤ nic.ratio := by
  intro nic hnic hact
  obtain ⟨p, hp, rfl⟩ := List.mem_map.mp hnic
  obtain ⟨hq1, hq2, hq3⟩ := hs p.2 (List.of_mem_zip hp).2
  rw [applyThroughput_active] at hact
  unfold applyThroughput
  rw [if_pos hact]
  dsimp only
  apply div_nonneg _ (le_of_lt hT)
  apply mul_nonneg hq1
  linarith

theorem pass1_sum (T : ℚ) (hT : 0 < T) (nics : List NicR) :
    ∀ (stats : List (ℚ × ℚ)),
      (∀ p ∈ stats, 0 ≤ p.1 ∧ 0 ≤ p.2 ∧ p.2 ≤ 1) →
      activeRatioSum ((nics.zip stats).map (applyThroughput T)) ≤
        (stats.map Prod.fst).sum / T := by
  induction nics with
  | nil =>
      intro stats hs
      simp only [List.zip_nil_left, List.map_nil]
      apply div_nonneg _ (le_of_lt hT)
      apply List.sum_nonneg
      intro x hx
      obtain ⟨p, hp, rfl⟩ := List.mem_map.mp hx
      exact (hs p hp).1
  | cons n ns ih =>
      intro stats hs
      cases stats with
      | nil => simp [activeRatioSum]
      | cons s ss =>
          rw [List.zip_cons_cons, List.map_cons, activeRatioSum_cons,
            List.map_cons, List.sum_cons, applyThroughput_active]
          have hrec := ih ss (fun p hp => hs p (List.mem_cons_of_mem _ hp))
          obtain ⟨hq1, hq2, hq3⟩ := hs s (List.mem_cons_self _ _)
          rw [add_div]
          by_cases h : n.active
          · rw [if_pos h]
            rw [show applyThroughput T (n, s) =
                { n with ratio := s.1 * (1 - s.2) / T } from by
              unfold applyThroughput
              rw [if_pos h]]
            have hmul : s.1 * (1 - s.2) ≤ s.1 := by nlinarith
            have hd : s.1 * (1 - s.2) / T ≤ s.1 / T :=
              (div_le_div_iff_of_pos_right hT).2 hmul
            dsimp only
            linarith
          · rw [if_neg h]
            have hnn : 0 ≤ s.1 / T := div_nonneg hq1 (le_of_lt hT)
            linarith

theorem applyFloor_le (m : ℚ) (hm : 0 ≤ m) (nic : NicR)
    (hr : 0 ≤ nic.ratio) : (applyFloor m nic).ratio ≤ nic.ratio + m := by
  unfold applyFloor
  by_cases h : nic.active ∧ nic.ratio < m
  · rw [if_pos h]
    dsimp only
    linarith
  · rw [if_neg h]
    linarith

theorem applyFloor_ge (m : ℚ) (nic : NicR) (hact : nic.active = true) :
    m ≤ (applyFloor m nic).ratio := by
  unfold applyFloor
  by_cases h : nic.active ∧ nic.ratio < m
  · rw [if_pos h]
  · rw [if_neg h]
    push_neg at h
    exact h hact

theorem floor_sum_le (m : ℚ) (hm : 0 ≤ m) (l : List NicR)
    (hnn : ∀ nic ∈ l, nic.active = true → 0 ≤ nic.ratio) :
    activeRatioSum (l.map (applyFloor m)) ≤
      activeRatioSum l + (activeCount l : ℚ) * m := by
  induction l with
  | nil => simp [activeRatioSum, activeCount]
  | cons x l ih =>
      rw [List.map_cons, activeRatioSum_cons, activeRatioSum_cons,
        activeCount_cons, applyFloor_active]
      have hrec := ih (fun nic h ha => hnn nic (List.mem_cons_of_mem _ h) ha)
      by_cases h : x.active
      · rw [if_pos h, if_pos h, if_pos h]
        have hfl := applyFloor_le m hm x (hnn x (List.mem_cons_self _ _) h)
        push_cast
        linarith
      · rw [if_neg h, if_neg h, if_neg h]
        push_cast
        linarith

theorem activeRatioSum_ge (m : ℚ) (l : List NicR)
    (hge : ∀ nic ∈ l, nic.active = true → m ≤ nic.ratio) :
    (activeCount l : ℚ) * m ≤ activeRatioSum l := by
  induction l with
  | nil => simp [activeRatioSum, activeCount]
  | cons x l ih =>
      rw [activeRatioSum_cons, activeCount_cons]
      have hrec := ih (fun nic hn ha => hge nic (List.mem_cons_of_mem _ hn) ha)
      by_cases h : x.active
      · rw [if_pos h, if_pos h]
        have hx := hge x (List.mem_cons_self _ _) h
        push_cast
        nlinarith
      · rw [if_neg h, if_neg h]
        push_cast
        nlinarith

theorem normalize_sum (t : ℚ) (l : List NicR) :
    activeRatioSum (l.map (applyNormalize t)) = activeRatioSum l / t := by
  induction l with
  | nil => simp [activeRatioSum]
  | cons x l ih =>
      rw [List.map_cons, activeRatioSum_cons, activeRatioSum_cons,
        applyNormalize_active, ih]
      by_cases h : x.active
      · rw [if_pos h, if_pos h,
          show (applyNormalize t x).ratio = x.ratio / t from by
            unfold applyNormalize
            rw [if_pos h],
          add_div]
      · rw [if_neg h, if_neg h, zero_add, zero_add]

end Multipath

/-- **C7 (amended).** After a completed path-weight adjustment (interval
elapsed, total throughput positive, at least one active NIC, per-NIC stats
with nonnegative throughput and loss rate in `[0,1]`, one stats entry per
NIC), the ratios of the active NICs sum to exactly `1` (so certainly
within `1e-9`), the set of active NICs is unchanged, and every active
NIC's ratio is at least `1/(11*active_count) = (0.1/active_count)/1.1`.
The claim's stronger bound `0.1/active_count` fails because the floor is
applied before the final renormalization, which can shrink a floored
ratio by up to the factor `1.1`. -/
theorem adjust_ratios_normalization (nics : List Multipath.NicR)
    (stats : List (ℚ × ℚ)) (hlen : stats.length = nics.length)
    (hs : ∀ p ∈ stats, 0 ≤ p.1 ∧ 0 ≤ p.2 ∧ p.2 ≤ 1)
    (hT : 0 < (stats.map Prod.fst).sum)
    (hact : 0 < Multipath.activeCount nics) :
    Multipath.activeRatioSum (Multipath.adjustRatiosCore nics stats) = 1 ∧
      Multipath.activeCount (Multipath.adjustRatiosCore nics stats) =
        Multipath.activeCount nics ∧
      ∀ nic ∈ Multipath.adjustRatiosCore nics stats, nic.active = true →
        1 / (11 * (Multipath.activeCount nics : ℚ)) ≤ nic.ratio := by
  classical
  set T := (stats.map Prod.fst).sum with hTdef
  set l1 := (nics.zip stats).map (Multipath.applyThroughput T) with hl1
  have hk1 : Multipath.activeCount l1 = Multipath.activeCount nics :=
    Multipath.activeCount_zip_map T nics stats hlen
  set k := Multipath.activeCount nics with hkdef
  set m : ℚ := (1 / 10) / (k : ℚ) with hmdef
  have hkQ : (0 : ℚ) < (k : ℚ) := by exact_mod_cast hact
  have hm : 0 < m := div_pos (by norm_num) hkQ
  have hl2 : Multipath.floorPass l1 = l1.map (Multipath.applyFloor m) := by
    rw [Multipath.floorPass, hk1]
  have h1nn : ∀ nic ∈ l1, nic.active = true → 0 ≤ nic.ratio :=
    Multipath.pass1_nonneg T hT nics stats hs
  have h1sum : Multipath.activeRatioSum l1 ≤ 1 := by
    have h := Multipath.pass1_sum T hT nics stats hs
    rw [← hTdef, div_self (ne_of_gt hT)] at h
    exact h
  have h2ge : ∀ nic ∈ l1.map (Multipath.applyFloor m), nic.active = true →
      m ≤ nic.ratio := by
    intro nic hn ha
    obtain ⟨x, hx, rfl⟩ := List.mem_map.mp hn
    rw [Multipath.applyFloor_active] at ha
    exact Multipath.applyFloor_ge m x ha
  have hkm : (k : ℚ) * m = 1 / 10 := by
    rw [hmdef]
    field_simp
    ring
  have h2sum : Multipath.activeRatioSum (l1.map (Multipath.applyFloor m)) ≤
      11 / 10 := by
    have h1 := Multipath.floor_sum_le m hm.le l1 h1nn
    rw [hk1, hkm] at h1
    linarith
  have h2cnt : Multipath.activeCount (l1.map (Multipath.applyFloor m)) = k := by
    rw [Multipath.activeCount_map_of_active_eq _
      (Multipath.applyFloor_active m), hk1]
  have htot : 1 / 10 ≤
      Multipath.activeRatioSum (l1.map (Multipath.applyFloor m)) := by
    have h := Multipath.activeRatioSum_ge m _ h2ge
    rw [h2cnt, hkm] at h
    exact h
  have htotpos : 0 <
      Multipath.activeRatioSum (l1.map (Multipath.applyFloor m)) := by
    linarith
  have hres : Multipath.adjustRatiosCore nics stats =
      (l1.map (Multipath.applyFloor m)).map
        (Multipath.applyNormalize
          (Multipath.activeRatioSum (l1.map (Multipath.applyFloor m)))) := by
    rw [Multipath.adjustRatiosCore, if_pos hT, ← hl1, hl2,
      Multipath.normalizePass, if_pos htotpos]
  rw [hres]
  refine ⟨?_, ?_, ?_⟩
  · rw [Multipath.normalize_sum, div_self (ne_of_gt htotpos)]
  · rw [Multipath.activeCount_map_of_active_eq _
      (Multipath.applyNormalize_active _), h2cnt]
  · intro nic hn ha
    obtain ⟨x, hx, rfl⟩ := List.mem_map.mp hn
    rw [Multipath.applyNormalize_active] at ha
    have hge := h2ge x hx ha
    rw [show (Multipath.applyNormalize
        (Multipath.activeRatioSum (l1.map (Multipath.applyFloor m))) x).ratio =
        x.ratio /
          Multipath.activeRatioSum (l1.map (Multipath.applyFloor m)) from by
      unfold Multipath.applyNormalize
      rw [if_pos ha]]
    rw [div_le_div_iff₀ (by nlinarith) htotpos]
    have h4 : (1 : ℚ) / 10 ≤ x.ratio * k := by
      have h5 := mul_le_mul_of_nonneg_right hge (le_of_lt hkQ)
      rw [hmdef, div_mul_cancel₀ _ (ne_of_gt hkQ)] at h5
      linarith
    nlinarith

/-- Witness for the amended C7 at two active NICs with throughputs 3
and 1 and zero loss. -/
theorem adjust_ratios_normalization_witness :
    Multipath.activeRatioSum (Multipath.adjustRatiosCore
        [⟨1, true⟩, ⟨1, true⟩] [(3, 0), (1, 0)]) = 1 ∧
      Multipath.activeCount (Multipath.adjustRatiosCore
        [⟨1, true⟩, ⟨1, true⟩] [(3, 0), (1, 0)]) =
        Multipath.activeCount [⟨1, true⟩, ⟨1, true⟩] ∧
      ∀ nic ∈ Multipath.adjustRatiosCore
          [⟨1, true⟩, ⟨1, true⟩] [(3, 0), (1, 0)], nic.active = true →
        1 / (11 * (Multipath.activeCount
          [(⟨1, true⟩ : Multipath.NicR), ⟨1, true⟩] : ℚ)) ≤ nic.ratio :=
  adjust_ratios_normalization [⟨1, true⟩, ⟨1, true⟩] [(3, 0), (1, 0)]
    (by norm_num)
    (by intro p hp; fin_cases hp <;> norm_num)
    (by norm_num)
    (by norm_num [Multipath.activeCount, List.filter_cons])

/-- **C7 counterexample.** With two active NICs, throughputs 100 and 1 and
zero loss, the weaker NIC ends at ratio `101/2101 < 1/20 = 0.1/active_count`:
the floor `0.1/active_count` is applied before the final renormalization
and does not survive it, so the claim as stated is false on the code. -/
theorem adjust_ratios_floor_counterexample :
    ∃ nic ∈ Multipath.adjustRatiosCore [⟨1, true⟩, ⟨1, true⟩]
        [(100, 0), (1, 0)],
      nic.active = true ∧
        nic.ratio < 1 / 10 / (Multipath.activeCount
          [(⟨1, true⟩ : Multipath.NicR), ⟨1, true⟩] : ℚ) := by
  have hres : Multipath.adjustRatiosCore [⟨1, true⟩, ⟨1, true⟩]
      [(100, 0), (1, 0)] =
      [⟨2000 / 2101, true⟩, ⟨101 / 2101, true⟩] := by
    norm_num [Multipath.adjustRatiosCore, Multipath.normalizePass,
      Multipath.floorPass, Multipath.applyThroughput, Multipath.applyFloor,
      Multipath.applyNormalize, Multipath.activeCount,
      Multipath.activeRatioSum, List.zip, List.zipWith, List.filter]
  rw [hres]
  refine ⟨⟨101 / 2101, true⟩, by simp, rfl, ?_⟩
  norm_num [Multipath.activeCount, List.filter_cons]

end SLS
